import Mathlib

/-!
# Consensus adapter: codec, proposal assembly, delivery and broadcast

A shallow embedding of `test/test_app.go` (the test `App` and its ASN.1 codec for
`Request` and `Batch`) and of `examples/naive_chain/node.go` (the `Node` adapter), with
the properties of their codec, of assembly and delivery, of the verification callbacks
and of broadcast.

Conventions.
* A Go `[]byte` and a Go `string` are both byte sequences; they are `Bytes`, a list of
  byte values `0..255`.
* A `uint64` is a `Nat` kept below `2^64` (an addition is taken modulo `2^64`); an
  `int64` and an `int` are an `Int`; the conversions between them are `toInt64` and
  `toUint64`.
* A Go function that can panic returns `Option`; `none` is the panic.
* A Go channel is the list of values sent on it so far, oldest first; a send completes.
* `encoding/asn1` is modelled at the level of bytes for the two struct shapes that
  `test_app.go` marshals. The functions that `node.go` calls and that are declared
  outside the two files (the codecs of the chain types, `sha256`, `proto.Marshal`) are
  the fields of an environment `Env`, over which every statement about `Node` is
  universal.
-/

namespace Consensus

/-- Byte sequences: Go `[]byte` and Go `string` values. -/
abbrev Bytes := List Nat

/-! ## `encoding/asn1`: the DER rules reached by `Request` and `Batch`

`Request` is a struct of two `string` fields and `Batch` a struct of one `[][]byte`
field, neither with field tags. `asn1.Marshal` and `asn1.Unmarshal` reach, for these two
shapes, the identifier octet, the definite length, `SEQUENCE`, `SEQUENCE OF`,
`OCTET STRING` and the string types. -/

/-- The universal tag number `TagOctetString` of `encoding/asn1`. -/
def TagOctetString : Nat := 4

/-- The universal tag number `TagUTF8String`. -/
def TagUTF8String : Nat := 12

/-- The universal tag number `TagSequence`. -/
def TagSequence : Nat := 16

/-- The universal tag number `TagNumericString`. -/
def TagNumericString : Nat := 18

/-- The universal tag number `TagPrintableString`. -/
def TagPrintableString : Nat := 19

/-- The universal tag number `TagT61String`. -/
def TagT61String : Nat := 20

/-- The universal tag number `TagIA5String`. -/
def TagIA5String : Nat := 22

/-- The universal tag number `TagGeneralString`. -/
def TagGeneralString : Nat := 27

/-- The universal tag number `TagBMPString`. -/
def TagBMPString : Nat := 30

/-- The `tagAndLength` record of `encoding/asn1`; `cls` is its field `class`. -/
structure TagAndLength where
  cls : Nat
  tag : Nat
  length : Nat
  isCompound : Bool
deriving DecidableEq, Repr

/-- The function `isPrintable(b, asterisk, ampersand)` of `encoding/asn1`. -/
def isPrintable (b : Nat) (asterisk ampersand : Bool) : Bool :=
  (97 ≤ b && b ≤ 122) ||
  (65 ≤ b && b ≤ 90) ||
  (48 ≤ b && b ≤ 57) ||
  (39 ≤ b && b ≤ 41) ||
  (43 ≤ b && b ≤ 47) ||
  b == 32 ||
  b == 58 ||
  b == 61 ||
  b == 63 ||
  (asterisk && b == 42) ||
  (ampersand && b == 38)

/-- A continuation byte `0x80..0xBF` of a UTF-8 sequence. -/
def isCont (b : Nat) : Bool := 128 ≤ b && b ≤ 191

/-- The size of the rune that the input starts with, as `utf8.ValidString` reads it from
the first byte and the accept range of the second: 1 for an ASCII byte, 2 to 4 for a
well-formed longer sequence (no overlong form, no surrogate, nothing above `U+10FFFF`),
and 0 where the input starts with no well-formed rune. -/
def runeSize : Bytes → Nat
  | [] => 0
  | b0 :: rest =>
    if b0 < 128 then 1
    else if 194 ≤ b0 && b0 ≤ 223 then
      match rest with
      | b1 :: _ => if isCont b1 then 2 else 0
      | _ => 0
    else if 224 ≤ b0 && b0 ≤ 239 then
      match rest with
      | b1 :: b2 :: _ =>
        if (if b0 == 224 then 160 ≤ b1 && b1 ≤ 191
            else if b0 == 237 then 128 ≤ b1 && b1 ≤ 159
            else isCont b1) && isCont b2 then 3 else 0
      | _ => 0
    else if 240 ≤ b0 && b0 ≤ 244 then
      match rest with
      | b1 :: b2 :: b3 :: _ =>
        if (if b0 == 240 then 144 ≤ b1 && b1 ≤ 191
            else if b0 == 244 then 128 ≤ b1 && b1 ≤ 143
            else isCont b1) && isCont b2 && isCont b3 then 4 else 0
      | _ => 0
    else 0

/-- The loop of `utf8.ValidString`: rune after rune, with fuel; every round takes at
least one byte. -/
def validUTF8Aux : Nat → Bytes → Bool
  | _, [] => true
  | 0, _ :: _ => false
  | fuel + 1, b :: bs =>
    if runeSize (b :: bs) = 0 then false
    else validUTF8Aux fuel ((b :: bs).drop (runeSize (b :: bs)))

/-- The function `utf8.ValidString` (and `utf8.Valid`): the bytes are well-formed
UTF-8. The length of the input is enough fuel. -/
def validUTF8 (s : Bytes) : Bool := validUTF8Aux s.length s

/-- The loop of `lengthLength`: `for i > 255 { numBytes++; i >>= 8 }`, with fuel. -/
def lengthLengthAux : Nat → Nat → Nat
  | 0, _ => 1
  | fuel + 1, i => if i > 255 then 1 + lengthLengthAux fuel (i / 256) else 1

/-- The function `lengthLength(i)`: the number of bytes of the length `i`. A Go `int`
has at most 64 bits, so the loop runs at most 7 times. -/
def lengthLength (i : Nat) : Nat := lengthLengthAux 8 i

/-- The function `appendLength(dst, i)` for `n = lengthLength(i)`: the `n` low bytes of
`i`, most significant first (`byte(i >> ((n-1)*8))`, ...). -/
def appendLength : Nat → Nat → Bytes
  | 0, _ => []
  | n + 1, i => (i / 256 ^ n) % 256 :: appendLength n i

/-- The function `appendTagAndLength` for a tag number below 31 (the only ones the two
struct shapes produce): the identifier octet, then the definite length in short form
below 128 and in long form from 128 on. -/
def appendTagAndLength (t : TagAndLength) : Bytes :=
  (t.cls * 64 + (if t.isCompound then 32 else 0) + t.tag) ::
    (if t.length ≥ 128 then
      (128 + lengthLength t.length) :: appendLength (lengthLength t.length) t.length
    else [t.length])

/-- The length loop of `parseTagAndLength`: reads `numBytes` bytes into `ret.length`;
fails on truncation, on a length of `1<<23` or more before a shift ("length too large")
and on a zero after the first byte ("superfluous leading zeros"). -/
def parseLengthBytes : Nat → Nat → Bytes → Option (Nat × Bytes)
  | 0, acc, bs => some (acc, bs)
  | _ + 1, _, [] => none
  | n + 1, acc, b :: rest =>
    if acc ≥ 2 ^ 23 then none
    else if acc * 256 + b = 0 then none
    else parseLengthBytes n (acc * 256 + b) rest

/-- The function `parseTagAndLength(bytes, offset)` on the input from `offset` on; returns
the record and the input after it. The high-tag-number form (low five bits all set) is
reported as an error at once: it yields either an error or a tag number of 31 or more,
which no field of the two struct shapes accepts. -/
def parseTagAndLength : Bytes → Option (TagAndLength × Bytes)
  | [] => none
  | b :: rest =>
    if b % 32 = 31 then none
    else
      match rest with
      | [] => none
      | l :: rest2 =>
        if (l / 128) % 2 = 0 then
          some (⟨b / 64, b % 32, l % 128, (b / 32) % 2 == 1⟩, rest2)
        else if l % 128 = 0 then none
        else
          match parseLengthBytes (l % 128) 0 rest2 with
          | none => none
          | some (len, rest3) =>
            if len < 128 then none
            else some (⟨b / 64, b % 32, len, (b / 32) % 2 == 1⟩, rest3)

/-- Marshalling of a `string` field without field tag: a PrintableString when every
character is printable (asterisk and ampersand rejected), otherwise a UTF8String, and an
error ("asn1: string not valid UTF-8") when the string is not valid UTF-8. The source
loop ranges over runes and tests `r >= utf8.RuneSelf || !isPrintable(byte(r))`; a rune
is below `RuneSelf` exactly when it is a single byte below 128, so the test is taken
bytewise. -/
def marshalString (s : Bytes) : Option Bytes :=
  if s.all (fun b => b < 128 && isPrintable b false false) then
    some (appendTagAndLength ⟨0, TagPrintableString, s.length, false⟩ ++ s)
  else if validUTF8 s then
    some (appendTagAndLength ⟨0, TagUTF8String, s.length, false⟩ ++ s)
  else none

/-- Marshalling of a `[]byte` value: an OCTET STRING. -/
def marshalOctets (b : Bytes) : Bytes :=
  appendTagAndLength ⟨0, TagOctetString, b.length, false⟩ ++ b

/-- The concatenated encodings of the elements of a `[][]byte`. -/
def marshalElems : List Bytes → Bytes
  | [] => []
  | x :: xs => marshalOctets x ++ marshalElems xs

/-- Marshalling of a `[][]byte` field: a SEQUENCE OF the elements. -/
def marshalSliceOfOctets (xs : List Bytes) : Bytes :=
  appendTagAndLength ⟨0, TagSequence, (marshalElems xs).length, true⟩ ++ marshalElems xs

/-- Content parsers of the string types that `asn1.Unmarshal` accepts for a `string`
field but `asn1.Marshal` never emits (NumericString, T61String, IA5String,
GeneralString, BMPString): from the tag number and the content to the string, or
`none` for an error. -/
abbrev AltStrings := Nat → Bytes → Option Bytes

/-- The function `parseField` for a `string` field without field tag, on the input from
the current offset on: the string and the input after the field, or `none` for an
error. -/
def parseStringField (alt : AltStrings) (bs : Bytes) : Option (Bytes × Bytes) :=
  match bs with
  | [] => none
  | _ :: _ =>
    match parseTagAndLength bs with
    | none => none
    | some (t, rest) =>
      let universalTag :=
        if t.cls = 0 ∧ (t.tag = TagIA5String ∨ t.tag = TagGeneralString ∨
            t.tag = TagT61String ∨ t.tag = TagUTF8String ∨ t.tag = TagNumericString ∨
            t.tag = TagBMPString) then t.tag
        else TagPrintableString
      if t.cls ≠ 0 ∨ t.tag ≠ universalTag ∨ t.isCompound ≠ false then none
      else if t.length > rest.length then none
      else
        let innerBytes := rest.take t.length
        let after := rest.drop t.length
        if universalTag = TagPrintableString then
          if innerBytes.all (fun b => isPrintable b true true) then some (innerBytes, after)
          else none
        else if universalTag = TagUTF8String then
          if validUTF8 innerBytes then some (innerBytes, after) else none
        else
          match alt universalTag innerBytes with
          | none => none
          | some v => some (v, after)

/-- The first loop of `parseSequenceOf` for elements of type `[]byte`: counts the
elements and checks the tag and the length of each. The foreign string tags and the
time tags that the loop rewrites all differ from OCTET STRING, before and after. The
fuel bounds the number of elements. -/
def countElements : Nat → Bytes → Option Nat
  | _, [] => some 0
  | 0, _ :: _ => none
  | fuel + 1, b :: bs =>
    match parseTagAndLength (b :: bs) with
    | none => none
    | some (t, rest) =>
      if t.cls ≠ 0 ∨ t.isCompound ≠ false ∨ t.tag ≠ TagOctetString then none
      else if t.length > rest.length then none
      else
        match countElements fuel (rest.drop t.length) with
        | none => none
        | some k => some (k + 1)

/-- The function `parseField` for a `[]byte` element: an OCTET STRING, copied. -/
def parseOctetsField (bs : Bytes) : Option (Bytes × Bytes) :=
  match bs with
  | [] => none
  | _ :: _ =>
    match parseTagAndLength bs with
    | none => none
    | some (t, rest) =>
      if t.cls ≠ 0 ∨ t.tag ≠ TagOctetString ∨ t.isCompound ≠ false then none
      else if t.length > rest.length then none
      else some (rest.take t.length, rest.drop t.length)

/-- The second loop of `parseSequenceOf`: `numElements` calls of `parseField`. -/
def parseElements : Nat → Bytes → Option (List Bytes)
  | 0, _ => some []
  | n + 1, bs =>
    match parseOctetsField bs with
    | none => none
    | some (x, rest) =>
      match parseElements n rest with
      | none => none
      | some xs => some (x :: xs)

/-- The function `parseSequenceOf` for a `[][]byte`: each element takes at least two
bytes, so the length of the input is enough fuel for the counting loop. -/
def parseSequenceOf (bs : Bytes) : Option (List Bytes) :=
  match countElements bs.length bs with
  | none => none
  | some n => parseElements n bs

/-- The function `parseField` for a `[][]byte` field without field tag. -/
def parseSliceField (bs : Bytes) : Option (List Bytes × Bytes) :=
  match bs with
  | [] => none
  | _ :: _ =>
    match parseTagAndLength bs with
    | none => none
    | some (t, rest) =>
      if t.cls ≠ 0 ∨ t.tag ≠ TagSequence ∨ t.isCompound ≠ true then none
      else if t.length > rest.length then none
      else
        match parseSequenceOf (rest.take t.length) with
        | none => none
        | some xs => some (xs, rest.drop t.length)

/-- The head of `parseField` for a struct: the content bytes of the outer SEQUENCE. Bytes
after the SEQUENCE are left to the caller, which ignores them. -/
def parseStructHeader (bs : Bytes) : Option Bytes :=
  match bs with
  | [] => none
  | _ :: _ =>
    match parseTagAndLength bs with
    | none => none
    | some (t, rest) =>
      if t.cls ≠ 0 ∨ t.tag ≠ TagSequence ∨ t.isCompound ≠ true then none
      else if t.length > rest.length then none
      else some (rest.take t.length)

/-! ## `test/test_app.go` -/

/-- The struct `Request`. -/
structure Request where
  ClientID : Bytes
  ID : Bytes
deriving DecidableEq, Repr

/-- The struct `Batch`. -/
structure Batch where
  Requests : List Bytes
deriving DecidableEq, Repr

/-- The struct `types.RequestInfo`. -/
structure RequestInfo where
  ClientID : Bytes
  ID : Bytes
deriving DecidableEq, Repr

/-- The struct `types.Proposal`. -/
structure Proposal where
  Payload : Bytes
  Header : Bytes
  Metadata : Bytes
deriving DecidableEq, Repr

/-- The call `asn1.Marshal(txn)` for a `Request`: a SEQUENCE of the two strings; the
error of either field is the error of the call. -/
def marshalRequest (txn : Request) : Option Bytes :=
  match marshalString txn.ClientID with
  | none => none
  | some a =>
    match marshalString txn.ID with
    | none => none
    | some b => some (appendTagAndLength ⟨0, TagSequence, (a ++ b).length, true⟩ ++ (a ++ b))

/-- The method `Request.ToBytes`: `none` is `panic(err)`. -/
def Request.ToBytes (txn : Request) : Option Bytes := marshalRequest txn

/-- The call `asn1.Unmarshal(req, &r)` on a zero `Request`, with the error dropped:
fields are assigned in order and an error leaves the later ones at their zero value. -/
def requestFromBytes (alt : AltStrings) (req : Bytes) : Request :=
  match parseStructHeader req with
  | none => ⟨[], []⟩
  | some inner =>
    match parseStringField alt inner with
    | none => ⟨[], []⟩
    | some (clientID, rest) =>
      match parseStringField alt rest with
      | none => ⟨clientID, []⟩
      | some (id, _) => ⟨clientID, id⟩

/-- The method `Batch.ToBytes`: `asn1.Marshal` of a struct of one `[][]byte` has no error
case, so the method never panics. -/
def Batch.ToBytes (b : Batch) : Bytes :=
  appendTagAndLength ⟨0, TagSequence, (marshalSliceOfOctets b.Requests).length, true⟩ ++
    marshalSliceOfOctets b.Requests

/-- The function `BatchFromBytes`: `asn1.Unmarshal(rawBlock, &block)` on a zero `Batch`,
with the error dropped. -/
def BatchFromBytes (rawBlock : Bytes) : Batch :=
  match parseStructHeader rawBlock with
  | none => ⟨[]⟩
  | some inner =>
    match parseSliceField inner with
    | none => ⟨[]⟩
    | some (xs, _) => ⟨xs⟩



/-- The slice `make([]T, 0)` and the slices grown from it by `append`, with their
nil-ness: `isNil` tells a nil slice from an empty one. -/
structure Slice (α : Type) where
  elems : List α
  isNil : Bool
deriving DecidableEq, Repr

/-- The expression `make([]T, 0)`: empty and not nil. -/
def Slice.make0 {α : Type} : Slice α := ⟨[], false⟩

/-- The expression `append(s, x)`: never nil. -/
def Slice.append {α : Type} (s : Slice α) (x : α) : Slice α := ⟨s.elems ++ [x], false⟩

/-- The struct `App`, with the channel `Delivered` as the batches sent on it. -/
structure App where
  ID : Nat
  Delivered : List Batch

/-- The method `App.RequestID`. -/
def App.RequestID (alt : AltStrings) (req : Bytes) : RequestInfo :=
  let txn := requestFromBytes alt req
  ⟨txn.ClientID, txn.ID⟩

/-- The method `App.VerifyProposal`: the list and the error (`none` is `nil`). -/
def App.VerifyProposal (alt : AltStrings) (proposal : Proposal) :
    Slice RequestInfo × Option String :=
  let blockData := BatchFromBytes proposal.Payload
  let requests := blockData.Requests.foldl
    (fun requests t =>
      let req := requestFromBytes alt t
      requests.append ⟨req.ClientID, req.ID⟩)
    Slice.make0
  (requests, none)

/-- The method `App.VerifyRequest`. -/
def App.VerifyRequest (alt : AltStrings) (val : Bytes) : RequestInfo × Option String :=
  let req := requestFromBytes alt val
  (⟨req.ClientID, req.ID⟩, none)

/-- The method `App.AssembleProposal`: the proposal has no header (nil) and the remainder
is nil. -/
def App.AssembleProposal (metadata : Bytes) (requests : List Bytes) : Proposal × List Bytes :=
  (⟨Batch.ToBytes ⟨requests⟩, [], metadata⟩, [])

/-- The method `App.Deliver`: sends the decoded batch on `Delivered`. -/
def App.Deliver (a : App) (proposal : Proposal) : App :=
  ⟨a.ID, a.Delivered ++ [BatchFromBytes proposal.Payload]⟩

/-! ## `examples/naive_chain/node.go` -/

/-- The conversion `int64(u)` of a `uint64`. -/
def toInt64 (u : Nat) : Int :=
  if u % 2 ^ 64 < 2 ^ 63 then ((u % 2 ^ 64 : Nat) : Int)
  else ((u % 2 ^ 64 : Nat) : Int) - 2 ^ 64

/-- The conversion `uint64(i)` of an `int64` or an `int`. -/
def toUint64 (i : Int) : Nat := (i % 2 ^ 64).toNat

/-- The struct `Transaction`, as `node.go` builds it. -/
structure Transaction where
  ClientID : Bytes
  Id : Bytes
deriving DecidableEq, Repr

/-- The struct `BlockHeader`, as `node.go` builds it; `Sequence` is an `int64`. -/
structure BlockHeader where
  PrevHash : Bytes
  DataHash : Bytes
  Sequence : Int
deriving DecidableEq, Repr

/-- The struct `BlockData`, as `node.go` builds it. -/
structure BlockData where
  Transactions : List Bytes
deriving DecidableEq, Repr

/-- The struct `Block`, as `node.go` builds it; `Sequence` is a `uint64`. -/
structure Block where
  Sequence : Nat
  PrevHash : Bytes
  Transactions : List Transaction
deriving DecidableEq, Repr

/-- The message `protos.ViewMetadata`, as `node.go` builds it. -/
structure ViewMetadata where
  LatestSequence : Nat
  ViewId : Nat
deriving DecidableEq, Repr

/-- The struct `bft.Signature`, of which the adapter sets `Id` alone. -/
structure Signature where
  Id : Nat
deriving DecidableEq, Repr

/-- The functions `node.go` calls and does not declare: the codecs of `BlockData`,
`BlockHeader` and `Transaction` (declared in another file of the package), the hash
`sha256` and `proto.Marshal` on a `ViewMetadata`. An encoder returns `none` where it
panics or, for `proto.Marshal`, returns an error; the decoders return a value on every
input, as their use without an error result in `node.go` shows. -/
structure Env where
  BlockData_ToBytes : BlockData → Option Bytes
  BlockDataFromBytes : Bytes → BlockData
  BlockHeader_ToBytes : BlockHeader → Option Bytes
  BlockHeaderFromBytes : Bytes → BlockHeader
  TransactionFromBytes : Bytes → Transaction
  sha256 : Bytes → Bytes
  protoMarshal : ViewMetadata → Option Bytes

/-- The struct `Node`: the counter `nextSeq` (a `uint64`), `prevHash`, `id`, the egress
map `out` as its entries (a key of type `int` and the channel bound to it, one channel for
each key, each channel being the messages sent on it) and `deliverChan` as the blocks
sent on it. The fields `in`, `stopChan` and `consensus` belong to the receive pumps and
the engine and are left out. -/
structure Node (M : Type) where
  nextSeq : Nat
  prevHash : Bytes
  id : Nat
  out : List (Int × List M)
  deliverChan : List Block
deriving DecidableEq, Repr

/-- The method `Node.RequestID`. -/
def Node.RequestID (env : Env) (req : Bytes) : RequestInfo :=
  let txn := env.TransactionFromBytes req
  ⟨txn.ClientID, txn.Id⟩

/-- The method `Node.VerifyProposal`: the list and the error (`none` is `nil`). -/
def Node.VerifyProposal (env : Env) (proposal : Proposal) :
    Slice RequestInfo × Option String :=
  let blockData := env.BlockDataFromBytes proposal.Payload
  let requests := blockData.Transactions.foldl
    (fun requests t =>
      let tx := env.TransactionFromBytes t
      requests.append ⟨tx.ClientID, tx.Id⟩)
    Slice.make0
  (requests, none)

/-- The method `Node.VerifyRequest`: `bft.RequestInfo{}` and a nil error. -/
def Node.VerifyRequest (_val : Bytes) : RequestInfo × Option String :=
  (⟨[], []⟩, none)

/-- The hexadecimal digit of `hex.EncodeToString` for a value below 16. -/
def hexDigit (d : Nat) : Nat := if d < 10 then 48 + d else 87 + d

/-- The function `hex.EncodeToString`: two lowercase digits for each byte. -/
def hexEncodeToString : Bytes → Bytes
  | [] => []
  | b :: rest => hexDigit (b / 16) :: hexDigit (b % 16) :: hexEncodeToString rest

/-- The function `computeDigest`. -/
def computeDigest (env : Env) (rawBytes : Bytes) : Bytes :=
  hexEncodeToString (env.sha256 rawBytes)

/-- The function `marshalOrPanic` on a `ViewMetadata`: `none` is `panic(err)`. -/
def marshalOrPanic (env : Env) (msg : ViewMetadata) : Option Bytes :=
  match env.protoMarshal msg with
  | none => none
  | some b => some b

/-- The method `Node.AssembleProposal`: the proposal and the remainder (nil), or `none`
where an encoder panics. The node is only read. -/
def Node.AssembleProposal {M : Type} (env : Env) (n : Node M) (_metadata : Bytes)
    (requests : List Bytes) : Option (Proposal × List Bytes) :=
  match env.BlockData_ToBytes ⟨requests⟩ with
  | none => none
  | some blockData =>
    match env.BlockHeader_ToBytes
        ⟨n.prevHash, computeDigest env blockData, toInt64 n.nextSeq⟩ with
    | none => none
    | some header =>
      match env.BlockData_ToBytes ⟨requests⟩ with
      | none => none
      | some payload =>
        match marshalOrPanic env ⟨n.nextSeq, 0⟩ with
        | none => none
        | some metadata => some (⟨payload, header, metadata⟩, [])

/-- The method `Node.BroadcastConsensus`: every entry of `out` is visited once, and the
message is sent on its channel unless `n.id == uint64(receiver)`. -/
def Node.BroadcastConsensus {M : Type} (n : Node M) (m : M) : Node M :=
  { n with out := n.out.map (fun e => if n.id = toUint64 e.1 then e else (e.1, e.2 ++ [m])) }

/-- The method `Node.Deliver`: decodes the payload and the header, adds 1 to the counter
and sends the block on `deliverChan`. -/
def Node.Deliver {M : Type} (env : Env) (n : Node M) (proposal : Proposal)
    (_signature : List Signature) : Node M :=
  let blockData := env.BlockDataFromBytes proposal.Payload
  let txns := blockData.Transactions.foldl
    (fun (txns : List Transaction) rawTxn =>
      let txn := env.TransactionFromBytes rawTxn
      txns ++ [⟨txn.ClientID, txn.Id⟩])
    []
  let header := env.BlockHeaderFromBytes proposal.Header
  { n with
    nextSeq := (n.nextSeq + 1) % 2 ^ 64
    deliverChan := n.deliverChan ++ [⟨toUint64 header.Sequence, header.PrevHash, txns⟩] }

/-- The struct literal of `NewNode`: `nextSeq` and `prevHash` keep their zero values. The
channels start with nothing sent on them. -/
def NewNode {M : Type} (id : Nat) (peers : List Int) : Node M :=
  { nextSeq := 0, prevHash := [], id := id, out := peers.map (fun r => (r, [])),
    deliverChan := [] }

/-! ## Runs of the node -/

/-- A call of the engine on the node. -/
inductive Call where
  | assemble (metadata : Bytes) (requests : List Bytes)
  | deliver (proposal : Proposal) (signature : List Signature)

/-- A run: the calls are made in order; the result is the final node and the proposals
that the `assemble` calls returned, or `none` where a call panics. -/
def run {M : Type} (env : Env) : Node M → List Call → Option (Node M × List Proposal)
  | n, [] => some (n, [])
  | n, Call.assemble metadata requests :: rest =>
    match Node.AssembleProposal env n metadata requests with
    | none => none
    | some (p, _) =>
      match run env n rest with
      | none => none
      | some (n2, ps) => some (n2, p :: ps)
  | n, Call.deliver proposal signature :: rest =>
    run env (Node.Deliver env n proposal signature) rest

/-- A run in which each proposal is assembled on the node and delivered to it before the
next one is assembled, one round for each pair of metadata and requests. -/
def rounds {M : Type} (env : Env) : Node M → List (Bytes × List Bytes) → Option (Node M)
  | n, [] => some n
  | n, (metadata, requests) :: rest =>
    match Node.AssembleProposal env n metadata requests with
    | none => none
    | some (p, _) => rounds env (Node.Deliver env n p []) rest

/-- The sequence numbers of the blocks on a delivery channel. -/
def sequences (ch : List Block) : List Nat := ch.map (fun b => b.Sequence)

/-- The peers whose channel holds exactly one more message in `after` than in
`before`. -/
def receivers {M : Type} (before after : List (Int × List M)) : List Int :=
  (before.filter
    (fun e => (after.lookup e.1).map List.length == some (e.2.length + 1))).map (fun e => e.1)

/-! ## A sample environment -/

/-- Eight bytes, most significant first. -/
def be8 (u : Nat) : Bytes :=
  [u / 2 ^ 56 % 256, u / 2 ^ 48 % 256, u / 2 ^ 40 % 256, u / 2 ^ 32 % 256,
   u / 2 ^ 24 % 256, u / 2 ^ 16 % 256, u / 2 ^ 8 % 256, u % 256]

/-- The number that eight bytes stand for, most significant first. -/
def fromBE8 : Bytes → Nat
  | [a, b, c, d, e, f, g, h] =>
    a * 2 ^ 56 + b * 2 ^ 48 + c * 2 ^ 40 + d * 2 ^ 32 + e * 2 ^ 24 + f * 2 ^ 16 + g * 2 ^ 8 + h
  | _ => 0

/-- A sample environment for concrete runs: `BlockData` and `Transaction` use the ASN.1
codec of `Batch` and `Request`; a header is its sequence in eight bytes followed by the
batch of its two hashes; the digest is a one-byte checksum standing in for `sha256`. -/
def sampleEnv : Env where
  BlockData_ToBytes := fun b => some (Batch.ToBytes ⟨b.Transactions⟩)
  BlockDataFromBytes := fun bs => ⟨(BatchFromBytes bs).Requests⟩
  BlockHeader_ToBytes := fun h =>
    some (be8 (toUint64 h.Sequence) ++ Batch.ToBytes ⟨[h.PrevHash, h.DataHash]⟩)
  BlockHeaderFromBytes := fun bs =>
    let hashes := (BatchFromBytes (bs.drop 8)).Requests
    ⟨hashes.getD 0 [], hashes.getD 1 [], toInt64 (fromBE8 (bs.take 8))⟩
  TransactionFromBytes := fun bs =>
    let r := requestFromBytes (fun _ _ => none) bs
    ⟨r.ClientID, r.ID⟩
  sha256 := fun bs => [bs.sum % 256]
  protoMarshal := fun v => some (be8 v.LatestSequence ++ be8 v.ViewId)

/-- The request `{ClientID: "c1", ID: "t1"}`. -/
def reqC1T1 : Request := ⟨[99, 49], [116, 49]⟩

/-- The request `{ClientID: "c1", ID: "t2"}`. -/
def reqC1T2 : Request := ⟨[99, 49], [116, 50]⟩

/-- The encoding of `{ClientID: "c1", ID: "t1"}`. -/
def encC1T1 : Bytes := [48, 8, 19, 2, 99, 49, 19, 2, 116, 49]

/-- The encoding of `{ClientID: "c1", ID: "t2"}`. -/
def encC1T2 : Bytes := [48, 8, 19, 2, 99, 49, 19, 2, 116, 50]

/-- A new node with identity 1 and the four peers 1, 2, 3 and 4. -/
def node0 : Node Nat := NewNode 1 [1, 2, 3, 4]

/-- The proposal that `node0` assembles from the requests `{c1,t1}` and `{c1,t2}`. -/
def proposal12 : Proposal :=
  ⟨[48, 26, 48, 24, 4, 10, 48, 8, 19, 2, 99, 49, 19, 2, 116, 49, 4, 10, 48, 8, 19, 2, 99, 49,
    19, 2, 116, 50],
   [0, 0, 0, 0, 0, 0, 0, 0, 48, 8, 48, 6, 4, 0, 4, 2, 101, 53],
   [0, 0, 0, 0, 0, 0, 0, 0, 0, 0, 0, 0, 0, 0, 0, 0]⟩

/-- The proposal that `node0` assembles from the request `{c1,t1}` alone. -/
def proposal1 : Proposal :=
  ⟨[48, 14, 48, 12, 4, 10, 48, 8, 19, 2, 99, 49, 19, 2, 116, 49],
   [0, 0, 0, 0, 0, 0, 0, 0, 48, 8, 48, 6, 4, 0, 4, 2, 50, 51],
   [0, 0, 0, 0, 0, 0, 0, 0, 0, 0, 0, 0, 0, 0, 0, 0]⟩

/-- The proposal that `node0` assembles from the request `{c1,t2}` alone. -/
def proposal2 : Proposal :=
  ⟨[48, 14, 48, 12, 4, 10, 48, 8, 19, 2, 99, 49, 19, 2, 116, 50],
   [0, 0, 0, 0, 0, 0, 0, 0, 48, 8, 48, 6, 4, 0, 4, 2, 50, 52],
   [0, 0, 0, 0, 0, 0, 0, 0, 0, 0, 0, 0, 0, 0, 0, 0]⟩

/-- The node `node0` after the delivery of `proposal12`. -/
def node1 : Node Nat := Node.Deliver sampleEnv node0 proposal12 []

/-- The proposal that `node1` assembles from the request `{c1,t1}` alone. -/
def proposal1b : Proposal :=
  ⟨[48, 14, 48, 12, 4, 10, 48, 8, 19, 2, 99, 49, 19, 2, 116, 49],
   [0, 0, 0, 0, 0, 0, 0, 1, 48, 8, 48, 6, 4, 0, 4, 2, 50, 51],
   [0, 0, 0, 0, 0, 0, 0, 1, 0, 0, 0, 0, 0, 0, 0, 0]⟩

/-! ## Conditions on the environment -/

/-- The header codec gives the `Sequence` of a header back, for every `int64` value. -/
def Env.SequenceExact (env : Env) : Prop :=
  ∀ (h : BlockHeader) (bs : Bytes), -2 ^ 63 ≤ h.Sequence → h.Sequence < 2 ^ 63 →
    env.BlockHeader_ToBytes h = some bs → (env.BlockHeaderFromBytes bs).Sequence = h.Sequence

/-- The three encoders return on every input. -/
def Env.EncodersReturn (env : Env) : Prop :=
  (∀ b, ∃ bs, env.BlockData_ToBytes b = some bs) ∧
  (∀ h, ∃ bs, env.BlockHeader_ToBytes h = some bs) ∧
  (∀ v, ∃ bs, env.protoMarshal v = some bs)

/-- The number of `deliver` calls in a run. -/
def delivers : List Call → Nat
  | [] => 0
  | Call.assemble _ _ :: rest => delivers rest
  | Call.deliver _ _ :: rest => delivers rest + 1

/-! ## Round trip of the DER layer -/

theorem lengthLength_eq (n : Nat) (h : n < 2 ^ 31) :
    lengthLength n =
      if n < 256 then 1 else if n < 65536 then 2 else if n < 16777216 then 3 else 4 := by
  unfold lengthLength
  simp only [lengthLengthAux]
  split_ifs <;> omega

theorem parseLength_append (n : Nat) (h128 : 128 ≤ n) (h : n < 2 ^ 31) (rest : Bytes) :
    parseLengthBytes (lengthLength n) 0 (appendLength (lengthLength n) n ++ rest)
      = some (n, rest) := by
  rw [lengthLength_eq n h]
  split_ifs with h1 h2 h3
  · simp [appendLength, parseLengthBytes]
    omega
  · simp [appendLength, parseLengthBytes]
    omega
  · simp [appendLength, parseLengthBytes]
    omega
  · simp [appendLength, parseLengthBytes]
    omega

theorem parseTagAndLength_append (t : TagAndLength) (rest : Bytes)
    (ht : t.tag < 31) (hl : t.length < 2 ^ 31) :
    parseTagAndLength (appendTagAndLength t ++ rest) = some (t, rest) := by
  obtain ⟨c, tag, len, comp⟩ := t
  simp only at ht hl
  have hb1 : (c * 64 + (if comp = true then 32 else 0) + tag) % 32 = tag := by
    split_ifs <;> omega
  have hb2 : (c * 64 + (if comp = true then 32 else 0) + tag) / 64 = c := by
    split_ifs <;> omega
  have hb3 : ((c * 64 + (if comp = true then 32 else 0) + tag) / 32 % 2 == 1) = comp := by
    cases comp
    · have : (c * 64 + (if false = true then 32 else 0) + tag) / 32 % 2 = 0 := by
        simp only [Bool.false_eq_true, if_false]; omega
      rw [this]; rfl
    · have : (c * 64 + (if true = true then 32 else 0) + tag) / 32 % 2 = 1 := by
        simp only [if_true]; omega
      rw [this]; rfl
  have hne : ¬ tag = 31 := by omega
  by_cases h : len ≥ 128
  · have hll : lengthLength len ≤ 4 ∧ 1 ≤ lengthLength len := by
      rw [lengthLength_eq len hl]; split_ifs <;> omega
    have e1 : ¬ (128 + lengthLength len) / 128 % 2 = 0 := by omega
    have e2 : (128 + lengthLength len) % 128 = lengthLength len := by omega
    have e3 : ¬ lengthLength len = 0 := by omega
    have e4 : ¬ len < 128 := by omega
    simp only [appendTagAndLength, parseTagAndLength, h, hb1, hb2, hb3, hne, e1, e2, e3, e4,
      parseLength_append len h hl rest, if_true, if_false, List.cons_append]
  · have e1 : len / 128 % 2 = 0 := by omega
    have e2 : len % 128 = len := by omega
    simp only [appendTagAndLength, parseTagAndLength, h, hb1, hb2, hb3, hne, e1, e2,
      if_true, if_false, List.cons_append, List.nil_append]

theorem appendTagAndLength_ne_nil (t : TagAndLength) (rest : Bytes) :
    appendTagAndLength t ++ rest ≠ [] := by
  simp [appendTagAndLength]

theorem isPrintable_mono (b : Nat) (h : isPrintable b false false = true) :
    isPrintable b true true = true := by
  simp only [isPrintable, Bool.false_and, Bool.or_false, Bool.true_and] at h ⊢
  simp only [Bool.or_eq_true] at h ⊢
  exact Or.inl (Or.inl h)

theorem parseStringField_marshal (alt : AltStrings) (s e rest : Bytes)
    (hm : marshalString s = some e) (hl : s.length < 2 ^ 31) :
    parseStringField alt (e ++ rest) = some (s, rest) := by
  unfold marshalString at hm
  split_ifs at hm with hp hu
  · cases hm
    have hall : (s.all fun b => isPrintable b true true) = true := by
      rw [List.all_eq_true] at hp ⊢
      intro b hb
      have := hp b hb
      simp only [Bool.and_eq_true] at this
      exact isPrintable_mono b this.2
    unfold parseStringField
    rw [List.append_assoc, parseTagAndLength_append _ _
      (by simp [TagPrintableString, TagUTF8String, TagSequence]) hl]
    have hne := appendTagAndLength_ne_nil
      ⟨0, TagPrintableString, s.length, false⟩ (s ++ rest)
    split
    · rename_i heq; exact absurd heq hne
    · simp [TagPrintableString, TagIA5String, TagGeneralString, TagT61String, TagUTF8String,
        TagNumericString, TagBMPString, hall]
  · cases hm
    unfold parseStringField
    rw [List.append_assoc, parseTagAndLength_append _ _
      (by simp [TagPrintableString, TagUTF8String, TagSequence]) hl]
    have hne := appendTagAndLength_ne_nil
      ⟨0, TagUTF8String, s.length, false⟩ (s ++ rest)
    split
    · rename_i heq; exact absurd heq hne
    · simp [TagPrintableString, TagIA5String, TagGeneralString, TagT61String, TagUTF8String,
        TagNumericString, TagBMPString, hu]

theorem parseStructHeader_append (body rest : Bytes) (hl : body.length < 2 ^ 31) :
    parseStructHeader (appendTagAndLength ⟨0, TagSequence, body.length, true⟩ ++ (body ++ rest))
      = some body := by
  unfold parseStructHeader
  rw [parseTagAndLength_append _ _ (by simp [TagPrintableString, TagUTF8String, TagSequence]) hl]
  have hne := appendTagAndLength_ne_nil
      ⟨0, TagSequence, body.length, true⟩ (body ++ rest)
  split
  · rename_i heq; exact absurd heq hne
  · simp

theorem marshalString_length_ge (s e : Bytes) (hm : marshalString s = some e) :
    s.length ≤ e.length := by
  unfold marshalString at hm
  split_ifs at hm
  · cases hm; simp only [List.length_append]; omega
  · cases hm; simp only [List.length_append]; omega

/-- Round trip of the `Request` codec where `ToBytes` returns: `e` is the encoding. -/
theorem requestFromBytes_marshal (alt : AltStrings) (r : Request) (e : Bytes)
    (hm : Request.ToBytes r = some e) (hl : e.length < 2 ^ 31) :
    requestFromBytes alt e = r := by
  obtain ⟨cid, id⟩ := r
  unfold Request.ToBytes marshalRequest at hm
  simp only at hm
  cases ha : marshalString cid with
  | none => rw [ha] at hm; cases hm
  | some a =>
    cases hb : marshalString id with
    | none => rw [ha, hb] at hm; cases hm
    | some b =>
      rw [ha, hb] at hm
      cases hm
      simp only [List.length_append] at hl
      have la := marshalString_length_ge cid a ha
      have lb := marshalString_length_ge id b hb
      have hbody : (a ++ b).length < 2 ^ 31 := by
        simp only [List.length_append]; omega
      have h1 := parseStructHeader_append (a ++ b) [] hbody
      rw [List.append_nil] at h1
      unfold requestFromBytes
      rw [h1]
      simp only
      rw [parseStringField_marshal alt cid a b ha (by omega)]
      simp only
      have h2 := parseStringField_marshal alt id b [] hb (by omega)
      rw [List.append_nil] at h2
      rw [h2]

theorem parseOctetsField_marshal (x rest : Bytes) (hl : x.length < 2 ^ 31) :
    parseOctetsField (marshalOctets x ++ rest) = some (x, rest) := by
  unfold parseOctetsField marshalOctets
  rw [List.append_assoc, parseTagAndLength_append _ _ (by simp [TagOctetString]) hl]
  have hne := appendTagAndLength_ne_nil
      ⟨0, TagOctetString, x.length, false⟩ (x ++ rest)
  split
  · rename_i heq; exact absurd heq hne
  · simp

theorem marshalOctets_cons (x rest : Bytes) : ∃ b bs, marshalOctets x ++ rest = b :: bs := by
  unfold marshalOctets appendTagAndLength
  simp only [List.cons_append]
  exact ⟨_, _, rfl⟩

theorem mem_length_le_marshalElems (xs : List Bytes) (x : Bytes) (hx : x ∈ xs) :
    x.length ≤ (marshalElems xs).length := by
  induction xs with
  | nil => cases hx
  | cons y ys ih =>
    simp only [marshalElems, marshalOctets, List.length_append]
    rcases List.mem_cons.mp hx with h | h
    · subst h; omega
    · have := ih h; omega

theorem length_le_marshalElems (xs : List Bytes) : xs.length ≤ (marshalElems xs).length := by
  induction xs with
  | nil => simp [marshalElems]
  | cons y ys ih =>
    simp only [marshalElems, marshalOctets, appendTagAndLength, List.length_append,
      List.length_cons]
    omega

theorem countElements_marshal (xs : List Bytes) :
    ∀ fuel, xs.length ≤ fuel → (∀ x ∈ xs, x.length < 2 ^ 31) →
      countElements fuel (marshalElems xs) = some xs.length := by
  induction xs with
  | nil => intro fuel _ _; cases fuel <;> rfl
  | cons x xs ih =>
    intro fuel hf hall
    obtain ⟨f, rfl⟩ : ∃ f, fuel = f + 1 :=
      ⟨fuel - 1, by simp only [List.length_cons] at hf; omega⟩
    have hx : x.length < 2 ^ 31 := hall x (List.mem_cons_self _ _)
    obtain ⟨b, bs, hcons⟩ := marshalOctets_cons x (marshalElems xs)
    have hp : parseTagAndLength (b :: bs)
        = some (⟨0, TagOctetString, x.length, false⟩, x ++ marshalElems xs) := by
      rw [← hcons]
      unfold marshalOctets
      rw [List.append_assoc, parseTagAndLength_append _ _ (by simp [TagOctetString]) hx]
    have ih2 := ih f (by simp only [List.length_cons] at hf; omega)
      (fun y hy => hall y (List.mem_cons_of_mem _ hy))
    show countElements (f + 1) (marshalOctets x ++ marshalElems xs) = _
    rw [hcons, countElements, hp]
    simp [ih2]

theorem parseElements_marshal (xs : List Bytes) (hall : ∀ x ∈ xs, x.length < 2 ^ 31) :
    parseElements xs.length (marshalElems xs) = some xs := by
  induction xs with
  | nil => rfl
  | cons x xs ih =>
    have hx : x.length < 2 ^ 31 := hall x (List.mem_cons_self _ _)
    simp only [marshalElems, List.length_cons, parseElements,
      parseOctetsField_marshal x _ hx, ih (fun y hy => hall y (List.mem_cons_of_mem _ hy))]

theorem parseSequenceOf_marshal (xs : List Bytes) (hall : ∀ x ∈ xs, x.length < 2 ^ 31) :
    parseSequenceOf (marshalElems xs) = some xs := by
  unfold parseSequenceOf
  rw [countElements_marshal xs _ (length_le_marshalElems xs) hall]
  exact parseElements_marshal xs hall

theorem parseSliceField_marshal (xs : List Bytes) (rest : Bytes)
    (hl : (marshalElems xs).length < 2 ^ 31) :
    parseSliceField (marshalSliceOfOctets xs ++ rest) = some (xs, rest) := by
  have hall : ∀ x ∈ xs, x.length < 2 ^ 31 := fun x hx =>
    Nat.lt_of_le_of_lt (mem_length_le_marshalElems xs x hx) hl
  unfold parseSliceField marshalSliceOfOctets
  rw [List.append_assoc, parseTagAndLength_append _ _ (by simp [TagSequence]) hl]
  have hne := appendTagAndLength_ne_nil
      ⟨0, TagSequence, (marshalElems xs).length, true⟩ (marshalElems xs ++ rest)
  split
  · rename_i heq; exact absurd heq hne
  · simp [parseSequenceOf_marshal xs hall]

/-- Round trip of the `Batch` codec below the largest length the decoder accepts. -/
theorem batchFromBytes_toBytes (b : Batch) (hl : (Batch.ToBytes b).length < 2 ^ 31) :
    BatchFromBytes (Batch.ToBytes b) = b := by
  obtain ⟨xs⟩ := b
  unfold Batch.ToBytes at hl
  simp only [List.length_append] at hl
  have hs : (marshalSliceOfOctets xs).length < 2 ^ 31 := by omega
  have he : (marshalElems xs).length < 2 ^ 31 := by
    unfold marshalSliceOfOctets at hs
    simp only [List.length_append] at hs
    omega
  have h1 := parseStructHeader_append (marshalSliceOfOctets xs) [] hs
  rw [List.append_nil] at h1
  have h2 := parseSliceField_marshal xs [] he
  rw [List.append_nil] at h2
  unfold BatchFromBytes Batch.ToBytes
  simp only [h1, h2]

/-! ## Fuel

The two loops that the model runs on fuel never run out of it: more fuel changes
nothing. -/

theorem lengthLengthAux_fuel (f : Nat) :
    ∀ (i g : Nat), i < 256 ^ f → f ≤ g → lengthLengthAux g i = lengthLengthAux f i := by
  induction f with
  | zero =>
    intro i g hi _
    have h0 : i = 0 := by simpa using hi
    subst h0
    cases g <;> simp [lengthLengthAux]
  | succ f ih =>
    intro i g hi hg
    obtain ⟨g2, rfl⟩ : ∃ g2, g = g2 + 1 := ⟨g - 1, by omega⟩
    have hdiv : i / 256 < 256 ^ f := by
      rw [Nat.div_lt_iff_lt_mul (by decide)]
      rw [pow_succ] at hi
      exact hi
    simp only [lengthLengthAux, ih (i / 256) g2 hdiv (by omega)]

/-- For a length that fits a Go `int`, the eight rounds of `lengthLength` are enough. -/
theorem lengthLength_fuel (i g : Nat) (hi : i < 2 ^ 64) (hg : 8 ≤ g) :
    lengthLengthAux g i = lengthLength i :=
  lengthLengthAux_fuel 8 i g (by norm_num at hi ⊢; exact hi) hg

theorem runeSize_le (bs : Bytes) : runeSize bs ≤ bs.length := by
  unfold runeSize
  split
  · simp
  · split_ifs <;> (try split) <;> (try split_ifs) <;> simp only [List.length_cons] <;> omega

/-- The loop of `utf8.ValidString` does not run out of fuel: with fuel of at least the
length of the input, more fuel gives the same result. -/
theorem validUTF8Aux_fuel (fuel : Nat) :
    ∀ bs : Bytes, bs.length ≤ fuel → validUTF8Aux (fuel + 1) bs = validUTF8Aux fuel bs := by
  induction fuel with
  | zero =>
    intro bs h
    have : bs = [] := List.length_eq_zero.mp (by omega)
    subst this
    rfl
  | succ fuel ih =>
    intro bs h
    cases bs with
    | nil => rfl
    | cons b tl =>
      rw [validUTF8Aux, validUTF8Aux]
      by_cases h0 : runeSize (b :: tl) = 0
      · simp only [h0, if_true]
      · simp only [h0, if_false]
        apply ih
        rw [List.length_drop]
        simp only [List.length_cons] at h ⊢
        omega

theorem parseLengthBytes_length (n : Nat) :
    ∀ (acc : Nat) (bs : Bytes) (len : Nat) (rest : Bytes),
      parseLengthBytes n acc bs = some (len, rest) → rest.length ≤ bs.length := by
  induction n with
  | zero =>
    intro acc bs len rest h
    simp only [parseLengthBytes, Option.some.injEq, Prod.mk.injEq] at h
    rw [h.2]
  | succ n ih =>
    intro acc bs len rest h
    cases bs with
    | nil => simp [parseLengthBytes] at h
    | cons b tl =>
      simp only [parseLengthBytes] at h
      split_ifs at h
      have := ih _ _ _ _ h
      simp only [List.length_cons]
      omega

theorem parseTagAndLength_length (bs : Bytes) (t : TagAndLength) (rest : Bytes)
    (h : parseTagAndLength bs = some (t, rest)) : rest.length + 2 ≤ bs.length := by
  cases bs with
  | nil => simp [parseTagAndLength] at h
  | cons b tl =>
    cases tl with
    | nil =>
      simp only [parseTagAndLength] at h
      split_ifs at h
    | cons l rest2 =>
      simp only [parseTagAndLength] at h
      split_ifs at h with h1 h2 h3
      · simp only [Option.some.injEq, Prod.mk.injEq] at h
        rw [← h.2]
        simp
      · cases hp : parseLengthBytes (l % 128) 0 rest2 with
        | none => simp [hp] at h
        | some pr =>
          obtain ⟨len, rest3⟩ := pr
          have hlen := parseLengthBytes_length _ _ _ _ _ hp
          simp only [hp] at h
          split_ifs at h
          simp only [Option.some.injEq, Prod.mk.injEq] at h
          rw [← h.2]
          simp only [List.length_cons]
          omega

/-- The counting loop of `parseSequenceOf` does not run out of fuel: with fuel of at
least the length of the input, more fuel gives the same result. -/
theorem countElements_fuel (fuel : Nat) :
    ∀ bs : Bytes, bs.length ≤ fuel → countElements (fuel + 1) bs = countElements fuel bs := by
  induction fuel with
  | zero =>
    intro bs h
    have : bs = [] := List.length_eq_zero.mp (by omega)
    subst this
    rfl
  | succ fuel ih =>
    intro bs h
    cases bs with
    | nil => rfl
    | cons b tl =>
      rw [countElements, countElements]
      cases hp : parseTagAndLength (b :: tl) with
      | none => rfl
      | some pr =>
        obtain ⟨t, rest⟩ := pr
        have hlen := parseTagAndLength_length _ _ _ hp
        simp only [List.length_cons] at hlen h
        have hd : (rest.drop t.length).length ≤ fuel := by
          rw [List.length_drop]; omega
        simp only [ih _ hd]

/-! ## The codec of `test/test_app.go` -/

theorem appendLength_length (k n : Nat) : (appendLength k n).length = k := by
  induction k with
  | zero => rfl
  | succ k ih => simp [appendLength, ih]

/-- The head of a batch whose single request has `2^31` bytes: the length of the outer
SEQUENCE is `2^31 + 12`, written in four bytes. -/
theorem bigBatch_toBytes (x : Bytes) (hx : x.length = 2 ^ 31) :
    ∃ rest, Batch.ToBytes ⟨[x]⟩ = 48 :: 132 :: 128 :: 0 :: 0 :: 12 :: rest := by
  have l1 : lengthLength (2 ^ 31) = 4 := by decide
  have l2 : lengthLength (2 ^ 31 + 6) = 4 := by decide
  have l3 : lengthLength (2 ^ 31 + 12) = 4 := by decide
  have e1 : (marshalElems [x]).length = 2 ^ 31 + 6 := by
    simp only [marshalElems, marshalOctets, appendTagAndLength, List.length_append,
      List.length_cons, List.length_nil, hx, l1]
    norm_num [appendLength_length]
  have e2 : (marshalSliceOfOctets [x]).length = 2 ^ 31 + 12 := by
    unfold marshalSliceOfOctets
    rw [List.length_append, e1]
    simp only [appendTagAndLength, l2, List.length_cons]
    norm_num [appendLength_length]
  unfold Batch.ToBytes
  simp only [e2]
  refine ⟨marshalSliceOfOctets [x], ?_⟩
  simp only [appendTagAndLength, l3, appendLength, TagSequence]
  norm_num

theorem bigBatch_fromBytes (x : Bytes) (hx : x.length = 2 ^ 31) :
    BatchFromBytes (Batch.ToBytes ⟨[x]⟩) = ⟨[]⟩ := by
  obtain ⟨rest, h⟩ := bigBatch_toBytes x hx
  rw [h]
  simp [BatchFromBytes, parseStructHeader, parseTagAndLength, parseLengthBytes]

theorem validUTF8Aux_of_ascii (s : Bytes) :
    ∀ fuel, s.length ≤ fuel → (∀ b ∈ s, b < 128) → validUTF8Aux fuel s = true := by
  induction s with
  | nil => intro fuel _ _; cases fuel <;> rfl
  | cons b rest ih =>
    intro fuel hf h
    obtain ⟨f, rfl⟩ : ∃ f, fuel = f + 1 :=
      ⟨fuel - 1, by simp only [List.length_cons] at hf; omega⟩
    have hb : b < 128 := h b (List.mem_cons_self _ _)
    have hr : runeSize (b :: rest) = 1 := by simp only [runeSize, hb, if_true]
    simp only [validUTF8Aux, hr, List.drop_succ_cons, List.drop_zero]
    simp only [List.length_cons] at hf
    simpa using ih f (by omega) (fun c hc => h c (List.mem_cons_of_mem _ hc))

theorem validUTF8_of_ascii (s : Bytes) (h : ∀ b ∈ s, b < 128) : validUTF8 s = true :=
  validUTF8Aux_of_ascii s s.length (Nat.le_refl _) h

theorem marshalString_eq_none_iff (s : Bytes) :
    marshalString s = none ↔ ¬ validUTF8 s = true := by
  unfold marshalString
  split_ifs with hp hu
  · have hv : validUTF8 s = true := by
      apply validUTF8_of_ascii
      intro b hb
      have := (List.all_eq_true.mp hp) b hb
      simp only [Bool.and_eq_true, decide_eq_true_eq] at this
      exact this.1
    simp [hv]
  · simp [hu]
  · simp [hu]

theorem request_toBytes_eq_none_iff (r : Request) :
    Request.ToBytes r = none ↔ ¬ (validUTF8 r.ClientID = true ∧ validUTF8 r.ID = true) := by
  unfold Request.ToBytes marshalRequest
  cases ha : marshalString r.ClientID with
  | none =>
    have := (marshalString_eq_none_iff r.ClientID).mp ha
    simp [this]
  | some a =>
    have h1 : validUTF8 r.ClientID = true := by
      by_contra hc
      rw [(marshalString_eq_none_iff r.ClientID).mpr hc] at ha
      cases ha
    cases hb : marshalString r.ID with
    | none =>
      have := (marshalString_eq_none_iff r.ID).mp hb
      simp [this]
    | some b =>
      have h2 : validUTF8 r.ID = true := by
        by_contra hc
        rw [(marshalString_eq_none_iff r.ID).mpr hc] at hb
        cases hb
      simp [h1, h2]

/-- C1, as stated, fails: `ToBytes` panics on a `Request` whose `ClientID` is the single
byte `0xff` (not valid UTF-8), so nothing is decoded; and a `Batch` holding one request
of `2^31` bytes is encoded with a length the decoder rejects, so it decodes to the zero
`Batch`. -/
theorem C1_roundtrip_fails :
    Request.ToBytes ⟨[255], []⟩ = none ∧
    BatchFromBytes (Batch.ToBytes ⟨[List.replicate (2 ^ 31) 0]⟩)
      ≠ ⟨[List.replicate (2 ^ 31) 0]⟩ := by
  refine ⟨by decide, ?_⟩
  rw [bigBatch_fromBytes _ (List.length_replicate _ _)]
  intro h
  injection h with h
  cases h

/-- C1, amended: `Request.ToBytes` panics exactly when `ClientID` or `ID` is not valid
UTF-8; where it returns an encoding shorter than `2^31` bytes, `requestFromBytes` gives
the request back; and for every `Batch` whose encoding is shorter than `2^31` bytes,
`BatchFromBytes` gives the batch back. -/
theorem C1_roundtrip (alt : AltStrings) (r : Request) (b : Batch) :
    (Request.ToBytes r = none ↔ ¬ (validUTF8 r.ClientID = true ∧ validUTF8 r.ID = true)) ∧
    (∀ e, Request.ToBytes r = some e → e.length < 2 ^ 31 → requestFromBytes alt e = r) ∧
    ((Batch.ToBytes b).length < 2 ^ 31 → BatchFromBytes (Batch.ToBytes b) = b) :=
  ⟨request_toBytes_eq_none_iff r,
   fun e he hl => requestFromBytes_marshal alt r e he hl,
   fun hl => batchFromBytes_toBytes b hl⟩

/-- C1 amended, at the request `{c1,t1}` and at the batch of the encodings of `{c1,t1}`
and `{c1,t2}`: `ToBytes` returns and decoding gives both back. -/
theorem C1_roundtrip_witness :
    Request.ToBytes reqC1T1 = some encC1T1 ∧
    requestFromBytes (fun _ _ => none) encC1T1 = reqC1T1 ∧
    BatchFromBytes (Batch.ToBytes ⟨[encC1T1, encC1T2]⟩) = ⟨[encC1T1, encC1T2]⟩ :=
  ⟨by decide,
   (C1_roundtrip (fun _ _ => none) reqC1T1 ⟨[encC1T1, encC1T2]⟩).2.1 encC1T1
     (by decide) (by decide),
   (C1_roundtrip (fun _ _ => none) reqC1T1 ⟨[encC1T1, encC1T2]⟩).2.2 (by decide)⟩

/-! ## Loops that append -/

theorem foldl_append_singleton {α β : Type} (f : β → α) (l : List β) (init : List α) :
    l.foldl (fun acc x => acc ++ [f x]) init = init ++ l.map f := by
  induction l generalizing init with
  | nil => simp
  | cons x xs ih => simp [ih]

theorem foldl_slice_elems {α β : Type} (f : β → α) (l : List β) (s : Slice α) :
    (l.foldl (fun acc x => acc.append (f x)) s).elems = s.elems ++ l.map f := by
  induction l generalizing s with
  | nil => simp
  | cons x xs ih =>
    rw [List.foldl_cons, ih]
    simp [Slice.append]

theorem foldl_slice_isNil {α β : Type} (f : β → α) (l : List β) (s : Slice α)
    (hs : s.isNil = false) : (l.foldl (fun acc x => acc.append (f x)) s).isNil = false := by
  induction l generalizing s with
  | nil => simpa using hs
  | cons x xs ih => exact ih _ rfl

/-! ## Integer conversions -/

theorem toUint64_toInt64 (u : Nat) (h : u < 2 ^ 64) : toUint64 (toInt64 u) = u := by
  unfold toUint64 toInt64
  split_ifs <;> omega

theorem toInt64_range (u : Nat) : -2 ^ 63 ≤ toInt64 u ∧ toInt64 u < 2 ^ 63 := by
  unfold toInt64
  split_ifs <;> omega

theorem toInt64_toUint64 (i : Int) (h1 : -2 ^ 63 ≤ i) (h2 : i < 2 ^ 63) :
    toInt64 (toUint64 i) = i := by
  unfold toUint64 toInt64
  split_ifs <;> omega

theorem toUint64_inj (a b : Int) (ha1 : -2 ^ 63 ≤ a) (ha2 : a < 2 ^ 63) (hb1 : -2 ^ 63 ≤ b)
    (hb2 : b < 2 ^ 63) (h : toUint64 a = toUint64 b) : a = b := by
  unfold toUint64 at h
  omega

/-! ## The sample environment -/

theorem fromBE8_be8 (u : Nat) (h : u < 2 ^ 64) : fromBE8 (be8 u) = u := by
  simp only [be8, fromBE8]
  omega

theorem sampleEnv_sequenceExact : sampleEnv.SequenceExact := by
  intro h bs h1 h2 he
  simp only [sampleEnv, Option.some.injEq] at he
  subst he
  have hu : toUint64 h.Sequence < 2 ^ 64 := by unfold toUint64; omega
  have ht : (be8 (toUint64 h.Sequence) ++ Batch.ToBytes ⟨[h.PrevHash, h.DataHash]⟩).take 8
      = be8 (toUint64 h.Sequence) := by
    simp [be8]
  simp only [sampleEnv, ht, fromBE8_be8 _ hu]
  exact toInt64_toUint64 _ h1 h2

theorem sampleEnv_encodersReturn : sampleEnv.EncodersReturn :=
  ⟨fun _ => ⟨_, rfl⟩, fun _ => ⟨_, rfl⟩, fun _ => ⟨_, rfl⟩⟩

/-! ## Assembly -/

theorem assemble_of {M : Type} (env : Env) (n : Node M) (metadata : Bytes)
    (requests : List Bytes) (payload header meta : Bytes)
    (h1 : env.BlockData_ToBytes ⟨requests⟩ = some payload)
    (h2 : env.BlockHeader_ToBytes ⟨n.prevHash, computeDigest env payload, toInt64 n.nextSeq⟩
      = some header)
    (h3 : env.protoMarshal ⟨n.nextSeq, 0⟩ = some meta) :
    Node.AssembleProposal env n metadata requests = some (⟨payload, header, meta⟩, []) := by
  unfold Node.AssembleProposal marshalOrPanic
  simp only [h1, h2, h3]

theorem assemble_eq {M : Type} (env : Env) (n : Node M) (metadata : Bytes)
    (requests : List Bytes) (p : Proposal) (rem : List Bytes)
    (hA : Node.AssembleProposal env n metadata requests = some (p, rem)) :
    env.BlockData_ToBytes ⟨requests⟩ = some p.Payload ∧
    env.BlockHeader_ToBytes ⟨n.prevHash, computeDigest env p.Payload, toInt64 n.nextSeq⟩
      = some p.Header ∧
    env.protoMarshal ⟨n.nextSeq, 0⟩ = some p.Metadata ∧ rem = [] := by
  unfold Node.AssembleProposal marshalOrPanic at hA
  cases h1 : env.BlockData_ToBytes ⟨requests⟩ with
  | none => simp [h1] at hA
  | some payload =>
    cases h2 : env.BlockHeader_ToBytes
        ⟨n.prevHash, computeDigest env payload, toInt64 n.nextSeq⟩ with
    | none => simp [h1, h2] at hA
    | some header =>
      cases h3 : env.protoMarshal ⟨n.nextSeq, 0⟩ with
      | none => simp [h1, h2, h3] at hA
      | some meta =>
        simp only [h1, h2, h3, Option.some.injEq, Prod.mk.injEq] at hA
        obtain ⟨hp, hr⟩ := hA
        subst hp
        exact ⟨rfl, h2, rfl, hr.symm⟩

theorem assemble_isSome {M : Type} (env : Env) (henc : env.EncodersReturn) (n : Node M)
    (metadata : Bytes) (requests : List Bytes) :
    ∃ p, Node.AssembleProposal env n metadata requests = some (p, []) := by
  obtain ⟨payload, h1⟩ := henc.1 ⟨requests⟩
  obtain ⟨header, h2⟩ := henc.2.1 ⟨n.prevHash, computeDigest env payload, toInt64 n.nextSeq⟩
  obtain ⟨meta, h3⟩ := henc.2.2 ⟨n.nextSeq, 0⟩
  exact ⟨_, assemble_of env n metadata requests payload header meta h1 h2 h3⟩

theorem deliver_chan {M : Type} (env : Env) (n : Node M) (p : Proposal)
    (signature : List Signature) :
    (Node.Deliver env n p signature).deliverChan = n.deliverChan ++
      [⟨toUint64 (env.BlockHeaderFromBytes p.Header).Sequence,
        (env.BlockHeaderFromBytes p.Header).PrevHash,
        (env.BlockDataFromBytes p.Payload).Transactions.map env.TransactionFromBytes⟩] := by
  unfold Node.Deliver
  simp only [foldl_append_singleton (fun rawTxn =>
    (⟨(env.TransactionFromBytes rawTxn).ClientID, (env.TransactionFromBytes rawTxn).Id⟩ :
      Transaction)), List.nil_append]

/-- C2: with a `BlockData` codec that gives `requests` back, `AssembleProposal(metadata,
requests)` returns whenever the encoders do, and `Deliver` on the proposal it returns
sends exactly one block, whose transactions are the decodings of `requests`, one for
each, in the same order. -/
theorem C2_order_preserved {M : Type} (env : Env) (n : Node M) (metadata : Bytes)
    (requests : List Bytes) (signature : List Signature)
    (hrt : ∀ bs, env.BlockData_ToBytes ⟨requests⟩ = some bs →
      env.BlockDataFromBytes bs = ⟨requests⟩) :
    (env.EncodersReturn → ∃ p, Node.AssembleProposal env n metadata requests = some (p, [])) ∧
    ∀ p rem, Node.AssembleProposal env n metadata requests = some (p, rem) →
      ∃ blk, (Node.Deliver env n p signature).deliverChan = n.deliverChan ++ [blk] ∧
        blk.Transactions = requests.map env.TransactionFromBytes ∧
        blk.Transactions.length = requests.length ∧
        ∀ i (hi : i < requests.length), blk.Transactions[i]? =
          some (env.TransactionFromBytes (requests.get ⟨i, hi⟩)) := by
  refine ⟨fun henc => assemble_isSome env henc n metadata requests, ?_⟩
  intro p rem hA
  obtain ⟨h1, -, -, -⟩ := assemble_eq env n metadata requests p rem hA
  refine ⟨_, deliver_chan env n p signature, ?_, ?_, ?_⟩
  · simp only [hrt _ h1]
  · simp only [hrt _ h1, List.length_map]
  · intro i hi
    simp only [hrt _ h1, List.getElem?_map, List.getElem?_eq_getElem hi, Option.map_some',
      List.get_eq_getElem]

/-- C2 at the requests `{c1,t1}` and `{c1,t2}` on a new node: a proposal is returned, and
the one block delivered holds the transactions `{c1,t1}` and `{c1,t2}`, in this order. -/
theorem C2_order_preserved_witness :
    ∃ p blk, Node.AssembleProposal sampleEnv node0 [] [encC1T1, encC1T2] = some (p, []) ∧
      (Node.Deliver sampleEnv node0 p []).deliverChan = node0.deliverChan ++ [blk] ∧
      blk.Transactions = [⟨[99, 49], [116, 49]⟩, ⟨[99, 49], [116, 50]⟩] := by
  have h := C2_order_preserved sampleEnv node0 [] [encC1T1, encC1T2] []
    (by
      intro bs h
      have e : sampleEnv.BlockData_ToBytes ⟨[encC1T1, encC1T2]⟩
          = some proposal12.Payload := by
        decide
      rw [e] at h
      cases h
      decide)
  obtain ⟨p, hp⟩ := h.1 sampleEnv_encodersReturn
  obtain ⟨blk, h1, h2, -⟩ := h.2 p [] hp
  exact ⟨p, blk, hp, h1, by rw [h2]; decide⟩

/-! ## Sequence numbers -/

theorem deliver_nextSeq {M : Type} (env : Env) (n : Node M) (p : Proposal)
    (signature : List Signature) :
    (Node.Deliver env n p signature).nextSeq = (n.nextSeq + 1) % 2 ^ 64 := rfl

theorem deliver_sequence_of_assemble {M : Type} (env : Env) (n : Node M) (metadata : Bytes)
    (requests : List Bytes) (p : Proposal) (rem : List Bytes) (signature : List Signature)
    (hn : n.nextSeq < 2 ^ 64) (hseq : env.SequenceExact)
    (hA : Node.AssembleProposal env n metadata requests = some (p, rem)) :
    sequences (Node.Deliver env n p signature).deliverChan
      = sequences n.deliverChan ++ [n.nextSeq] := by
  obtain ⟨-, h2, -, -⟩ := assemble_eq env n metadata requests p rem hA
  have hr := toInt64_range n.nextSeq
  have hs := hseq _ _ hr.1 hr.2 h2
  simp only at hs
  rw [deliver_chan]
  simp only [sequences, List.map_append, List.map_cons, List.map_nil, hs,
    toUint64_toInt64 _ hn]

theorem rounds_isSome {M : Type} (env : Env) (henc : env.EncodersReturn)
    (inputs : List (Bytes × List Bytes)) :
    ∀ n : Node M, ∃ n2, rounds env n inputs = some n2 := by
  induction inputs with
  | nil => intro n; exact ⟨n, rfl⟩
  | cons x rest ih =>
    intro n
    obtain ⟨metadata, requests⟩ := x
    obtain ⟨payload, h1⟩ := henc.1 ⟨requests⟩
    obtain ⟨header, h2⟩ :=
      henc.2.1 ⟨n.prevHash, computeDigest env payload, toInt64 n.nextSeq⟩
    obtain ⟨meta, h3⟩ := henc.2.2 ⟨n.nextSeq, 0⟩
    have hA := assemble_of env n metadata requests payload header meta h1 h2 h3
    obtain ⟨n2, h⟩ := ih (Node.Deliver env n ⟨payload, header, meta⟩ [])
    exact ⟨n2, by simp only [rounds, hA, h]⟩

theorem rounds_sequences {M : Type} (env : Env) (hseq : env.SequenceExact)
    (inputs : List (Bytes × List Bytes)) :
    ∀ (n n2 : Node M), n.nextSeq + inputs.length ≤ 2 ^ 64 → rounds env n inputs = some n2 →
      sequences n2.deliverChan
        = sequences n.deliverChan ++ List.range' n.nextSeq inputs.length := by
  induction inputs with
  | nil =>
    intro n n2 _ hr
    simp only [rounds, Option.some.injEq] at hr
    subst hr
    simp
  | cons x rest ih =>
    intro n n2 hw hr
    obtain ⟨metadata, requests⟩ := x
    simp only [List.length_cons] at hw
    cases hA : Node.AssembleProposal env n metadata requests with
    | none => simp [rounds, hA] at hr
    | some pr =>
      obtain ⟨p, rem⟩ := pr
      simp only [rounds, hA] at hr
      have hn : n.nextSeq < 2 ^ 64 := by omega
      have hd := deliver_sequence_of_assemble env n metadata requests p rem [] hn hseq hA
      have hnext := deliver_nextSeq env n p []
      have hw2 : (Node.Deliver env n p []).nextSeq + rest.length ≤ 2 ^ 64 := by
        rw [hnext]; omega
      have key : List.range' ((n.nextSeq + 1) % 2 ^ 64) rest.length
          = List.range' (n.nextSeq + 1) rest.length := by
        by_cases hl : rest.length = 0
        · rw [hl]; rfl
        · rw [Nat.mod_eq_of_lt (by omega)]
      rw [ih _ _ hw2 hr, hd, hnext, key, List.length_cons, List.range'_succ,
        List.append_assoc]
      rfl

/-- C3, as stated, fails: two proposals assembled on a new node before either is
delivered both carry the sequence 0, and delivering them one after the other sends two
blocks with the sequences 0 and 0. -/
theorem C3_sequences_repeat :
    run sampleEnv node0 [Call.assemble [] [encC1T1], Call.assemble [] [encC1T2]]
      = some (node0, [proposal1, proposal2]) ∧
    (run sampleEnv node0 [Call.deliver proposal1 [], Call.deliver proposal2 []]).map
      (fun r => sequences r.1.deliverChan) = some [0, 0] := by
  decide

/-- C3, amended: in a run where each proposal is assembled on the node and delivered to
it before the next one is assembled, with a header codec that gives the sequence back
and a counter that does not pass `2^64`, the blocks sent carry the sequences
`nextSeq, nextSeq + 1, ...`, each one more than the one before; and the run returns
whenever the encoders do. -/
theorem C3_sequences_increase {M : Type} (env : Env) (n : Node M)
    (inputs : List (Bytes × List Bytes)) (hseq : env.SequenceExact)
    (hw : n.nextSeq + inputs.length ≤ 2 ^ 64) :
    (env.EncodersReturn → ∃ n2, rounds env n inputs = some n2) ∧
    ∀ n2, rounds env n inputs = some n2 →
      sequences n2.deliverChan
        = sequences n.deliverChan ++ List.range' n.nextSeq inputs.length :=
  ⟨fun henc => rounds_isSome env henc inputs n,
   fun n2 hr => rounds_sequences env hseq inputs n n2 hw hr⟩

/-- C3 amended, at two rounds on a new node: the run returns and the sequences sent are
0 and 1. -/
theorem C3_sequences_increase_witness :
    ∃ n2, rounds sampleEnv node0 [([], [encC1T1, encC1T2]), ([], [encC1T1])] = some n2 ∧
      sequences n2.deliverChan = [0, 1] := by
  have h := C3_sequences_increase sampleEnv node0 [([], [encC1T1, encC1T2]), ([], [encC1T1])]
    sampleEnv_sequenceExact (by decide)
  obtain ⟨n2, hn2⟩ := h.1 sampleEnv_encodersReturn
  exact ⟨n2, hn2, by rw [h.2 n2 hn2]; decide⟩

/-- C4, as stated, fails: on a new node the proposal assembled from `{c1,t1}` and
`{c1,t2}` is delivered in a block of sequence 0, while the counter after the increment
is 1. -/
theorem C4_sequence_not_post_increment :
    Node.AssembleProposal sampleEnv node0 [] [encC1T1, encC1T2] = some (proposal12, []) ∧
    (Node.Deliver sampleEnv node0 proposal12 []).nextSeq = 1 ∧
    sequences (Node.Deliver sampleEnv node0 proposal12 []).deliverChan = [0] := by
  decide

/-- C4, amended: where `Deliver` is called on a proposal that `AssembleProposal` returned
on the same node state, with a header codec that gives the sequence back, `Deliver` adds
1 to the counter (modulo `2^64`) and sends exactly one block, whose `Sequence` is the
counter value before the increment, the value stamped at assembly, and not the value
after it. -/
theorem C4_sequence_pre_increment {M : Type} (env : Env) (n : Node M) (metadata : Bytes)
    (requests : List Bytes) (p : Proposal) (rem : List Bytes) (signature : List Signature)
    (hn : n.nextSeq < 2 ^ 64) (hseq : env.SequenceExact)
    (hA : Node.AssembleProposal env n metadata requests = some (p, rem)) :
    (Node.Deliver env n p signature).nextSeq = (n.nextSeq + 1) % 2 ^ 64 ∧
    ∃ blk, (Node.Deliver env n p signature).deliverChan = n.deliverChan ++ [blk] ∧
      blk.Sequence = n.nextSeq ∧
      blk.Sequence ≠ (Node.Deliver env n p signature).nextSeq := by
  have hd := deliver_sequence_of_assemble env n metadata requests p rem signature hn hseq hA
  rw [deliver_chan] at hd
  simp only [sequences, List.map_append, List.map_cons, List.map_nil,
    List.append_cancel_left_eq, List.cons.injEq, and_true] at hd
  refine ⟨rfl, _, deliver_chan env n p signature, hd, ?_⟩
  rw [deliver_nextSeq]
  simp only [hd]
  omega

/-- C4 amended, on a new node: the block carries the sequence 0 and the counter is 1
afterwards. -/
theorem C4_sequence_pre_increment_witness :
    (Node.Deliver sampleEnv node0 proposal12 []).nextSeq = (node0.nextSeq + 1) % 2 ^ 64 ∧
    ∃ blk, (Node.Deliver sampleEnv node0 proposal12 []).deliverChan
        = node0.deliverChan ++ [blk] ∧
      blk.Sequence = node0.nextSeq ∧
      blk.Sequence ≠ (Node.Deliver sampleEnv node0 proposal12 []).nextSeq :=
  C4_sequence_pre_increment sampleEnv node0 [] [encC1T1, encC1T2] proposal12 [] []
    (by decide) sampleEnv_sequenceExact (by decide)

/-! ## The assembled proposal -/

/-- C5: `AssembleProposal` returns whenever the encoders do, and the `Header` of the
proposal it returns is the encoding of a `BlockHeader` whose `Sequence` is the counter of
the node (converted to `int64`: the same 64 bits, and the same number below `2^63`),
whose `DataHash` is `computeDigest` of the proposal's `Payload` and whose `PrevHash` is
the node's `prevHash`; the call leaves the node, and so its counter, as it was. -/
theorem C5_header_stamped {M : Type} (env : Env) (n : Node M) (metadata : Bytes)
    (requests : List Bytes) (hn : n.nextSeq < 2 ^ 64) :
    (env.EncodersReturn → ∃ p, Node.AssembleProposal env n metadata requests = some (p, [])) ∧
    ∀ p rem, Node.AssembleProposal env n metadata requests = some (p, rem) →
      (∃ hdr : BlockHeader, env.BlockHeader_ToBytes hdr = some p.Header ∧
        hdr.Sequence = toInt64 n.nextSeq ∧ toUint64 hdr.Sequence = n.nextSeq ∧
        (n.nextSeq < 2 ^ 63 → hdr.Sequence = (n.nextSeq : Int)) ∧
        hdr.DataHash = computeDigest env p.Payload ∧ hdr.PrevHash = n.prevHash) ∧
      run env n [Call.assemble metadata requests] = some (n, [p]) := by
  refine ⟨fun henc => assemble_isSome env henc n metadata requests, ?_⟩
  intro p rem hA
  obtain ⟨-, h2, -, -⟩ := assemble_eq env n metadata requests p rem hA
  refine ⟨⟨_, h2, rfl, toUint64_toInt64 _ hn, ?_, rfl, rfl⟩, ?_⟩
  · intro h63
    simp only [toInt64]
    split_ifs <;> omega
  · simp only [run, hA]

/-- C5 on a new node with the requests `{c1,t1}` and `{c1,t2}`: the header encodes the
sequence 0, the empty `prevHash` and the digest of the payload, and the node is
unchanged. -/
theorem C5_header_stamped_witness :
    ∃ p hdr, Node.AssembleProposal sampleEnv node0 [] [encC1T1, encC1T2] = some (p, []) ∧
      sampleEnv.BlockHeader_ToBytes hdr = some p.Header ∧
      hdr.Sequence = 0 ∧ toUint64 hdr.Sequence = 0 ∧
      hdr.DataHash = computeDigest sampleEnv p.Payload ∧ hdr.PrevHash = [] ∧
      run sampleEnv node0 [Call.assemble [] [encC1T1, encC1T2]] = some (node0, [p]) := by
  have h := C5_header_stamped sampleEnv node0 [] [encC1T1, encC1T2] (by decide)
  obtain ⟨p, hp⟩ := h.1 sampleEnv_encodersReturn
  obtain ⟨⟨hdr, h1, h2, h3, -, h5, h6⟩, h7⟩ := h.2 p [] hp
  exact ⟨p, hdr, hp, h1, by rw [h2]; decide, h3, h5, h6, h7⟩

/-- C6: in both adapters `AssembleProposal` consumes the requests in full. On the node it
returns whenever the encoders do, and what it returns is an empty remainder and a
proposal whose `Payload` is the encoding of the `BlockData` holding exactly `requests`;
on the test `App` it always returns an empty remainder and the encoding of the `Batch`
holding exactly `requests`. -/
theorem C6_requests_consumed {M : Type} (env : Env) (n : Node M) (metadata : Bytes)
    (requests : List Bytes) :
    (env.EncodersReturn → ∃ p, Node.AssembleProposal env n metadata requests = some (p, [])) ∧
    (∀ p rem, Node.AssembleProposal env n metadata requests = some (p, rem) →
      rem = [] ∧ env.BlockData_ToBytes ⟨requests⟩ = some p.Payload) ∧
    (App.AssembleProposal metadata requests).2 = [] ∧
    (App.AssembleProposal metadata requests).1.Payload = Batch.ToBytes ⟨requests⟩ := by
  refine ⟨fun henc => assemble_isSome env henc n metadata requests, ?_, rfl, rfl⟩
  intro p rem hA
  obtain ⟨h1, -, -, hr⟩ := assemble_eq env n metadata requests p rem hA
  exact ⟨hr, h1⟩

/-- C6 on a new node with the metadata `[7]` and the requests `{c1,t1}` and `{c1,t2}`:
both adapters return an empty remainder and a payload that is the encoding of the batch
of the two requests, which decodes to the two requests in the given order; and with no
requests at all the test `App` returns the encoding of the empty batch. -/
theorem C6_requests_consumed_witness :
    (∃ p rem, Node.AssembleProposal sampleEnv node0 [7] [encC1T1, encC1T2] = some (p, rem) ∧
      rem = [] ∧
      p.Payload = [48, 26, 48, 24, 4, 10, 48, 8, 19, 2, 99, 49, 19, 2, 116, 49, 4, 10, 48, 8,
        19, 2, 99, 49, 19, 2, 116, 50] ∧
      sampleEnv.BlockDataFromBytes p.Payload = ⟨[encC1T1, encC1T2]⟩) ∧
    ((App.AssembleProposal [7] [encC1T1, encC1T2]).2 = [] ∧
      (App.AssembleProposal [7] [encC1T1, encC1T2]).1.Payload
        = [48, 26, 48, 24, 4, 10, 48, 8, 19, 2, 99, 49, 19, 2, 116, 49, 4, 10, 48, 8,
          19, 2, 99, 49, 19, 2, 116, 50] ∧
      BatchFromBytes (App.AssembleProposal [7] [encC1T1, encC1T2]).1.Payload
        = ⟨[encC1T1, encC1T2]⟩) ∧
    (App.AssembleProposal [] []).1.Payload = [48, 2, 48, 0] := by
  have h := C6_requests_consumed sampleEnv node0 [7] [encC1T1, encC1T2]
  have h0 := C6_requests_consumed sampleEnv node0 [] []
  obtain ⟨p, hp⟩ := h.1 sampleEnv_encodersReturn
  obtain ⟨hrem, hpay⟩ := h.2.1 p [] hp
  have e : sampleEnv.BlockData_ToBytes ⟨[encC1T1, encC1T2]⟩
      = some [48, 26, 48, 24, 4, 10, 48, 8, 19, 2, 99, 49, 19, 2, 116, 49, 4, 10, 48, 8,
        19, 2, 99, 49, 19, 2, 116, 50] := by
    decide
  rw [e] at hpay
  have hp2 := (Option.some.inj hpay).symm
  refine ⟨⟨p, [], hp, hrem, hp2, ?_⟩, ⟨h.2.2.1, ?_, ?_⟩, ?_⟩
  · rw [hp2]; decide
  · rw [h.2.2.2]; decide
  · rw [h.2.2.2]; decide
  · rw [h0.2.2.2]; decide

/-! ## Verification callbacks -/

/-- C8: in both adapters `VerifyProposal` returns a nil error and a non-nil list holding,
for each request of the decoded payload and in payload order, the `RequestInfo` that
`RequestID` gives for the bytes of that request; the list is empty (and still not nil)
where the payload decodes to no requests. -/
theorem C8_verifyProposal (env : Env) (alt : AltStrings) (proposal : Proposal) :
    ((Node.VerifyProposal env proposal).2 = none ∧
      (Node.VerifyProposal env proposal).1.elems
        = (env.BlockDataFromBytes proposal.Payload).Transactions.map (Node.RequestID env) ∧
      (Node.VerifyProposal env proposal).1.isNil = false) ∧
    ((App.VerifyProposal alt proposal).2 = none ∧
      (App.VerifyProposal alt proposal).1.elems
        = (BatchFromBytes proposal.Payload).Requests.map (App.RequestID alt) ∧
      (App.VerifyProposal alt proposal).1.isNil = false) := by
  refine ⟨⟨rfl, ?_, ?_⟩, ⟨rfl, ?_, ?_⟩⟩
  · unfold Node.VerifyProposal
    simp only
    rw [foldl_slice_elems (fun t => (⟨(env.TransactionFromBytes t).ClientID,
      (env.TransactionFromBytes t).Id⟩ : RequestInfo))]
    rfl
  · unfold Node.VerifyProposal
    exact foldl_slice_isNil (fun t => (⟨(env.TransactionFromBytes t).ClientID,
      (env.TransactionFromBytes t).Id⟩ : RequestInfo)) _ _ rfl
  · unfold App.VerifyProposal
    simp only
    rw [foldl_slice_elems (fun t => (⟨(requestFromBytes alt t).ClientID,
      (requestFromBytes alt t).ID⟩ : RequestInfo))]
    rfl
  · unfold App.VerifyProposal
    exact foldl_slice_isNil (fun t => (⟨(requestFromBytes alt t).ClientID,
      (requestFromBytes alt t).ID⟩ : RequestInfo)) _ _ rfl

/-- C9 on the code: for the encoding of the request `{c1,t1}`, `Node.VerifyRequest`
returns the zero `RequestInfo` and a nil error, while `Node.RequestID` and the test
`App.VerifyRequest` return the identity `{c1,t1}`. -/
theorem C9_verifyRequest_zero :
    Request.ToBytes reqC1T1 = some encC1T1 ∧
    Node.VerifyRequest encC1T1 = (⟨[], []⟩, none) ∧
    Node.RequestID sampleEnv encC1T1 = ⟨[99, 49], [116, 49]⟩ ∧
    App.VerifyRequest (fun _ _ => none) encC1T1 = (⟨[99, 49], [116, 49]⟩, none) := by
  decide

/-! ## Broadcast -/

theorem lookup_map_snd {M : Type} (g : Int → List M → List M) (out : List (Int × List M))
    (r : Int) :
    (out.map (fun e => (e.1, g e.1 e.2))).lookup r = (out.lookup r).map (g r) := by
  induction out with
  | nil => rfl
  | cons e rest ih =>
    obtain ⟨k, c⟩ := e
    rw [List.map_cons, List.lookup_cons, List.lookup_cons]
    by_cases hk : r = k
    · subst hk
      simp
    · have hb : (r == k) = false := by simpa using hk
      simp only [hb]
      exact ih

theorem lookup_broadcast {M : Type} (id : Nat) (m : M) (out : List (Int × List M)) (r : Int) :
    (out.map (fun e => if id = toUint64 e.1 then e else (e.1, e.2 ++ [m]))).lookup r
      = (out.lookup r).map (fun ch => if id = toUint64 r then ch else ch ++ [m]) := by
  have hf : (fun e : Int × List M => if id = toUint64 e.1 then e else (e.1, e.2 ++ [m]))
      = (fun e => (e.1, (fun k ch => if id = toUint64 k then ch else ch ++ [m]) e.1 e.2)) := by
    funext e
    simp only
    split_ifs <;> rfl
  rw [hf]
  exact lookup_map_snd (fun k ch => if id = toUint64 k then ch else ch ++ [m]) out r

theorem lookup_of_mem_nodup {M : Type} (out : List (Int × List M))
    (hnd : (out.map Prod.fst).Nodup) (e : Int × List M) (he : e ∈ out) :
    out.lookup e.1 = some e.2 := by
  induction out with
  | nil => cases he
  | cons x rest ih =>
    obtain ⟨k, c⟩ := x
    simp only [List.map_cons, List.nodup_cons] at hnd
    rcases List.mem_cons.mp he with h | h
    · subst h; simp [List.lookup_cons]
    · have hne : e.1 ≠ k := by
        intro hek
        exact hnd.1 (hek ▸ List.mem_map_of_mem Prod.fst h)
      have hb : (e.1 == k) = false := by simpa using hne
      rw [List.lookup_cons]
      simp only [hb]
      exact ih hnd.2 h

theorem receivers_broadcast {M : Type} (n : Node M) (m : M) (self : Int)
    (hself : toUint64 self = n.id) (hs1 : -2 ^ 63 ≤ self) (hs2 : self < 2 ^ 63)
    (hnd : (n.out.map Prod.fst).Nodup)
    (hr : ∀ r ∈ n.out.map Prod.fst, -2 ^ 63 ≤ r ∧ r < 2 ^ 63) :
    receivers n.out (n.BroadcastConsensus m).out
      = (n.out.map Prod.fst).filter (fun r => decide (r ≠ self)) := by
  unfold receivers Node.BroadcastConsensus
  simp only
  rw [List.filter_map]
  congr 1
  apply List.filter_congr
  intro e he
  rw [lookup_broadcast, lookup_of_mem_nodup n.out hnd e he]
  have hrange := hr e.1 (List.mem_map_of_mem Prod.fst he)
  by_cases hid : n.id = toUint64 e.1
  · have : e.1 = self :=
      toUint64_inj _ _ hrange.1 hrange.2 hs1 hs2 (by rw [← hid, hself])
    simp [hid, this]
  · have : e.1 ≠ self := by
      intro h; apply hid; rw [h, hself]
    simp [hid, this]

/-- C7: `BroadcastConsensus(m)` keeps the keys of `out`, and on the channel of every key
`r` it sends `m` exactly once, except on the channel of the key for which the test of the
source, `n.id == uint64(r)`, holds, where it sends nothing; for a key that is not
negative this test is equality of the key and the identity. With distinct keys, one of
them the node's own, the peers that receive the message are all the keys but that one,
so with four peers exactly three channels receive it. -/
theorem C7_broadcast_excludes_self {M : Type} (n : Node M) (m : M) :
    (n.BroadcastConsensus m).out.map Prod.fst = n.out.map Prod.fst ∧
    (∀ r ch, n.out.lookup r = some ch →
      (n.BroadcastConsensus m).out.lookup r
        = some (if n.id = toUint64 r then ch else ch ++ [m])) ∧
    (∀ r : Int, 0 ≤ r → r < 2 ^ 63 → (n.id = toUint64 r ↔ (n.id : Int) = r)) ∧
    (∀ self : Int, self ∈ n.out.map Prod.fst → toUint64 self = n.id →
      (n.out.map Prod.fst).Nodup →
      (∀ r ∈ n.out.map Prod.fst, -2 ^ 63 ≤ r ∧ r < 2 ^ 63) →
      receivers n.out (n.BroadcastConsensus m).out
        = (n.out.map Prod.fst).filter (fun r => decide (r ≠ self)) ∧
      self ∉ receivers n.out (n.BroadcastConsensus m).out ∧
      (n.out.length = 4 → (receivers n.out (n.BroadcastConsensus m).out).length = 3)) := by
  refine ⟨?_, ?_, ?_, ?_⟩
  · unfold Node.BroadcastConsensus
    simp only [List.map_map]
    apply List.map_congr_left
    intro e _
    simp only [Function.comp]
    split_ifs <;> rfl
  · intro r ch h
    unfold Node.BroadcastConsensus
    simp only
    rw [lookup_broadcast, h]
    rfl
  · intro r h0 h1
    unfold toUint64
    omega
  · intro self hmem hself hnd hr
    have hrs := hr self hmem
    have heq := receivers_broadcast n m self hself hrs.1 hrs.2 hnd hr
    refine ⟨heq, ?_, ?_⟩
    · rw [heq]; simp
    · intro h4
      rw [heq]
      have h1 : (n.out.map Prod.fst).filter (fun r => decide (r ≠ self))
          = (n.out.map Prod.fst).erase self := by
        rw [List.Nodup.erase_eq_filter hnd self]
        apply List.filter_congr
        intro x _
        by_cases hx : x = self <;> simp [hx]
      rw [h1, List.length_erase_of_mem hmem, List.length_map, h4]

/-- C7 on a new node with identity 1 and the peers 1, 2, 3 and 4: the peers 2, 3 and 4
receive the message 7, exactly three channels, and the channel of peer 1 stays empty. -/
theorem C7_broadcast_excludes_self_witness :
    receivers node0.out (node0.BroadcastConsensus 7).out = [2, 3, 4] ∧
    (receivers node0.out (node0.BroadcastConsensus 7).out).length = 3 ∧
    (node0.BroadcastConsensus 7).out.lookup 1 = some [] ∧
    (node0.BroadcastConsensus 7).out.lookup 2 = some [7] := by
  have h := C7_broadcast_excludes_self node0 7
  obtain ⟨h1, -, h3⟩ := h.2.2.2 1 (by decide) (by decide) (by decide) (by decide)
  exact ⟨by rw [h1]; decide, h3 (by decide), h.2.1 1 [] (by decide), h.2.1 2 [] (by decide)⟩

/-! ## Frame of assembly and delivery -/

theorem run_frame {M : Type} (env : Env) (calls : List Call) :
    ∀ (n n2 : Node M) (ps : List Proposal), n.nextSeq < 2 ^ 64 →
      run env n calls = some (n2, ps) →
      n2.prevHash = n.prevHash ∧ n2.id = n.id ∧ n2.out = n.out ∧
      n2.nextSeq = (n.nextSeq + delivers calls) % 2 ^ 64 ∧
      n2.deliverChan.length = n.deliverChan.length + delivers calls ∧
      ∀ p ∈ ps, ∃ dataHash sequence,
        env.BlockHeader_ToBytes ⟨n.prevHash, dataHash, sequence⟩ = some p.Header := by
  induction calls with
  | nil =>
    intro n n2 ps hn hr
    simp only [run, Option.some.injEq, Prod.mk.injEq] at hr
    obtain ⟨rfl, rfl⟩ := hr
    refine ⟨rfl, rfl, rfl, ?_, rfl, ?_⟩
    · simp only [delivers, Nat.add_zero]; omega
    · intro p hp; cases hp
  | cons c rest ih =>
    intro n n2 ps hn hr
    cases c with
    | assemble metadata requests =>
      cases hA : Node.AssembleProposal env n metadata requests with
      | none => simp [run, hA] at hr
      | some pr =>
        obtain ⟨p, rem⟩ := pr
        cases hrest : run env n rest with
        | none => simp [run, hA, hrest] at hr
        | some res =>
          obtain ⟨n3, ps3⟩ := res
          simp only [run, hA, hrest, Option.some.injEq, Prod.mk.injEq] at hr
          obtain ⟨rfl, rfl⟩ := hr
          obtain ⟨a, b, c, d, e, f⟩ := ih n n3 ps3 hn hrest
          refine ⟨a, b, c, d, e, ?_⟩
          intro q hq
          rcases List.mem_cons.mp hq with h | h
          · subst h
            exact ⟨_, _, (assemble_eq env n metadata requests q rem hA).2.1⟩
          · exact f q h
    | deliver proposal signature =>
      simp only [run] at hr
      have hn2 : (Node.Deliver env n proposal signature).nextSeq < 2 ^ 64 := by
        rw [deliver_nextSeq]; omega
      obtain ⟨a, b, c, d, e, f⟩ := ih _ n2 ps hn2 hr
      refine ⟨a, b, c, ?_, ?_, f⟩
      · rw [d, deliver_nextSeq]
        simp only [delivers]
        omega
      · rw [e, deliver_chan]
        simp only [delivers, List.length_append, List.length_cons, List.length_nil]
        omega

/-- C10: `Deliver` leaves `prevHash`, `id` and `out` as they were and adds 1 to the
counter (modulo `2^64`) whatever the proposal holds; and after every run of
`AssembleProposal` and `Deliver` calls that returns, `prevHash`, `id` and `out` are
those of the start, the counter has grown by the number of `Deliver` calls, and every
assembled header is the encoding of a `BlockHeader` whose `PrevHash` is the `prevHash`
of the start. A node built by `NewNode` starts with the empty `prevHash`. -/
theorem C10_prevHash_never_advanced {M : Type} (env : Env) (n n2 : Node M)
    (calls : List Call) (ps : List Proposal) (hn : n.nextSeq < 2 ^ 64)
    (hr : run env n calls = some (n2, ps)) :
    (∀ proposal signature,
      (Node.Deliver env n proposal signature).prevHash = n.prevHash ∧
      (Node.Deliver env n proposal signature).id = n.id ∧
      (Node.Deliver env n proposal signature).out = n.out ∧
      (Node.Deliver env n proposal signature).nextSeq = (n.nextSeq + 1) % 2 ^ 64) ∧
    (n2.prevHash = n.prevHash ∧ n2.id = n.id ∧ n2.out = n.out ∧
      n2.nextSeq = (n.nextSeq + delivers calls) % 2 ^ 64 ∧
      n2.deliverChan.length = n.deliverChan.length + delivers calls ∧
      ∀ p ∈ ps, ∃ dataHash sequence,
        env.BlockHeader_ToBytes ⟨n.prevHash, dataHash, sequence⟩ = some p.Header) ∧
    (∀ (id : Nat) (peers : List Int),
      (NewNode id peers : Node M).prevHash = [] ∧ (NewNode id peers : Node M).nextSeq = 0) :=
  ⟨fun _ _ => ⟨rfl, rfl, rfl, rfl⟩, run_frame env calls n n2 ps hn hr,
   fun _ _ => ⟨rfl, rfl⟩⟩

/-- C10 on a new node: a proposal is assembled and delivered, and a second one is
assembled; both headers carry the empty `prevHash` and the counter ends at 1. -/
theorem C10_prevHash_never_advanced_witness :
    (∀ proposal signature,
      (Node.Deliver sampleEnv node0 proposal signature).prevHash = node0.prevHash ∧
      (Node.Deliver sampleEnv node0 proposal signature).id = node0.id ∧
      (Node.Deliver sampleEnv node0 proposal signature).out = node0.out ∧
      (Node.Deliver sampleEnv node0 proposal signature).nextSeq
        = (node0.nextSeq + 1) % 2 ^ 64) ∧
    (node1.prevHash = node0.prevHash ∧ node1.id = node0.id ∧ node1.out = node0.out ∧
      node1.nextSeq = (node0.nextSeq + delivers [Call.assemble [] [encC1T1, encC1T2],
        Call.deliver proposal12 [], Call.assemble [] [encC1T1]]) % 2 ^ 64 ∧
      node1.deliverChan.length = node0.deliverChan.length +
        delivers [Call.assemble [] [encC1T1, encC1T2], Call.deliver proposal12 [],
          Call.assemble [] [encC1T1]] ∧
      ∀ p ∈ [proposal12, proposal1b], ∃ dataHash sequence,
        sampleEnv.BlockHeader_ToBytes ⟨node0.prevHash, dataHash, sequence⟩ = some p.Header) ∧
    (∀ (id : Nat) (peers : List Int),
      (NewNode id peers : Node Nat).prevHash = [] ∧
      (NewNode id peers : Node Nat).nextSeq = 0) :=
  C10_prevHash_never_advanced sampleEnv node0 node1
    [Call.assemble [] [encC1T1, encC1T2], Call.deliver proposal12 [],
      Call.assemble [] [encC1T1]]
    [proposal12, proposal1b] (by decide) (by decide)

end Consensus
